import Mathlib

/-!
Shallow embedding of the blackjack game-state engine of `main.py`:
deck/shoe, hand values, Hi-Lo counting, betting, the strategy policy and the
round state machine (`play_hand`), together with theorems settling the
specification's claims about them.

Modelling conventions:
* Python floats are modelled as exact rationals (`ℚ`); every constant that
  occurs (`0.75`, `1.5`, the bet sizes) is exactly representable in binary
  floating point and the arithmetic used by the claims stays in small dyadic
  rationals, so the rational model agrees with the float code on everything
  stated here.  Python `int(x)` truncation toward zero is `pyInt`.
* `np.random.shuffle` is external randomness: a freshly shuffled shoe is an
  explicit input (`fresh`) of `play_hand`, consumed only when the cut card
  was reached.
* Python code that would raise (dereferencing the `None` returned by
  `Deck.deal` on an empty shoe, `hands[0]` on an empty list) is modelled by
  `Option`: the whole round evaluates to `none` exactly where the Python
  program would crash.
-/

/-- Source constant NUM_DECKS (main.py line 6). -/
def NUM_DECKS : ℕ := 6

/-- Source constant MIN_BET (main.py line 7). -/
def MIN_BET : ℚ := 10

/-- Source constant BLACKJACK_PAYOUT = 1.5 (main.py line 8); 1.5 is the exact
binary float 3/2 (written with `Rat.divInt` so that it evaluates inside the
kernel, see `qAdd` below). -/
def BLACKJACK_PAYOUT : ℚ := Rat.divInt 3 2

/-- Source constant STARTING_BANKROLL (main.py line 11). -/
def STARTING_BANKROLL : ℚ := 1000

/-- Source constant MIN_BET_MULTIPLIER (main.py line 15). -/
def MIN_BET_MULTIPLIER : ℤ := 1

/-- Source constant MAX_BET_MULTIPLIER (main.py line 16). -/
def MAX_BET_MULTIPLIER : ℤ := 5

/-- Source constant BET_RAMP_START (main.py line 17). -/
def BET_RAMP_START : ℚ := 2

/-- Rational addition written on numerators and denominators.  The core
field operations on `ℚ` are irreducible, so closed rounds could not be
evaluated through them; these helpers reduce and are proved equal to the
field operations (`qAdd_eq` and friends), which the abstract theorems use. -/
def qAdd (a b : ℚ) : ℚ := Rat.divInt (a.num * b.den + b.num * a.den) (a.den * b.den)

/-- Rational subtraction on numerators and denominators; see `qAdd`. -/
def qSub (a b : ℚ) : ℚ := Rat.divInt (a.num * b.den - b.num * a.den) (a.den * b.den)

/-- Rational multiplication on numerators and denominators; see `qAdd`. -/
def qMul (a b : ℚ) : ℚ := Rat.divInt (a.num * b.num) (a.den * b.den)

/-- Rational division on numerators and denominators; see `qAdd`. -/
def qDiv (a b : ℚ) : ℚ := Rat.divInt (a.num * b.den) (a.den * b.num)

theorem qAdd_eq (a b : ℚ) : qAdd a b = a + b := by
  rw [Rat.add_num_den, qAdd]
  congr 1
  ring

theorem qSub_eq (a b : ℚ) : qSub a b = a - b := by
  rw [sub_eq_add_neg, ← qAdd_eq, qAdd, qSub, Rat.neg_num, Rat.neg_den]
  congr 1
  ring

theorem qMul_eq (a b : ℚ) : qMul a b = a * b := by
  rw [Rat.mul_eq_mkRat, Rat.mkRat_eq_divInt, qMul]
  congr 1

theorem qDiv_eq (a b : ℚ) : qDiv a b = a / b := by
  rw [Rat.div_def', qDiv]

theorem ratFloor_eq (q : ℚ) : Rat.floor q = ⌊q⌋ :=
  (Rat.floor_def' q).trans Rat.floor_def.symm

theorem BLACKJACK_PAYOUT_eq : BLACKJACK_PAYOUT = 3 / 2 := by
  rw [BLACKJACK_PAYOUT, Rat.divInt_eq_div]
  norm_num

/-- The thirteen card ranks of main.py line 37. -/
inductive Rank
  | r2 | r3 | r4 | r5 | r6 | r7 | r8 | r9 | r10 | rJ | rQ | rK | rA
deriving DecidableEq

/-- The four (purely cosmetic) suits of main.py line 38. -/
inductive Suit
  | hearts | diamonds | clubs | spades
deriving DecidableEq

/-- Source class Card (main.py lines 19-33); the suit is never consulted by
the engine. -/
structure Card where
  rank : Rank
  suit : Suit
deriving DecidableEq

/-- Source Card.get_value (main.py lines 24-30): J/Q/K are worth 10, an Ace
is nominally 11 (softened later in the hand computation), numerals are their
face value. -/
def Card.get_value (c : Card) : ℕ :=
  match c.rank with
  | .r2 => 2
  | .r3 => 3
  | .r4 => 4
  | .r5 => 5
  | .r6 => 6
  | .r7 => 7
  | .r8 => 8
  | .r9 => 9
  | .r10 => 10
  | .rJ => 10
  | .rQ => 10
  | .rK => 10
  | .rA => 11

/-- Source class Deck (main.py lines 35-59): the shoe is the (already
shuffled) list of cards plus the cut-card position fixed at construction. -/
structure Deck where
  cards : List Card
  cut_card_position : ℕ
deriving DecidableEq

/-- Construction of a fresh shoe (main.py lines 36-48).  The shuffled order
is supplied externally (randomness); the cut card sits at
`int(len(cards) * 0.75)`, and `n * 0.75` is the exact float `3n/4`, so the
truncation is natural-number division by 4. -/
def Deck.build (shuffled : List Card) : Deck :=
  { cards := shuffled, cut_card_position := shuffled.length * 3 / 4 }

/-- Source Deck.deal (main.py lines 53-56): on an empty shoe the Python code
returns the sentinel `None` (modelled `none`); otherwise it pops and returns
the front card. -/
def Deck.deal (d : Deck) : Option (Card × Deck) :=
  match d.cards with
  | [] => none
  | c :: rest => some (c, { d with cards := rest })

/-- Source Deck.needs_shuffle (main.py lines 58-59). -/
def Deck.needs_shuffle (d : Deck) : Bool :=
  d.cards.length ≤ d.cut_card_position

/-- Source class Hand (main.py lines 61-93): an ordered list of cards. -/
structure Hand where
  cards : List Card
deriving DecidableEq

/-- The ace-softening while-loop of Hand.get_value (main.py lines 79-81):
while the total exceeds 21 and an ace counted as 11 remains, convert one ace
from 11 to 1. -/
def softenAces : ℕ → ℕ → ℕ
  | total, 0 => total
  | total, aces + 1 => if 21 < total then softenAces (total - 10) aces else total

/-- Source Hand.get_value (main.py lines 68-83): sum the nominal values
(aces as 11, counted by their value being 11) and then soften aces. -/
def Hand.get_value (h : Hand) : ℕ :=
  softenAces ((h.cards.map Card.get_value).sum)
    (h.cards.countP fun c => c.get_value == 11)

/-- Source Hand.is_blackjack (main.py lines 85-86). -/
def Hand.is_blackjack (h : Hand) : Bool :=
  h.cards.length == 2 && h.get_value == 21

/-- Source Hand.is_busted (main.py lines 88-89). -/
def Hand.is_busted (h : Hand) : Bool :=
  21 < h.get_value

/-- The two strategy tags appearing in the source ('basic', 'card_counter'). -/
inductive Strategy
  | basic | card_counter
deriving DecidableEq

/-- Source class Player (main.py lines 95-103). -/
structure Player where
  bankroll : ℚ
  min_bet : ℚ
  current_bet : ℚ
  hands : List Hand
  strategy : Strategy
  running_count : ℤ
  true_count : ℚ
deriving DecidableEq

/-- Python `int(x)` on a float: truncation toward zero. -/
def pyInt (q : ℚ) : ℤ :=
  if q < 0 then -(Rat.floor (-q)) else Rat.floor q

/-- Source Player.place_bet (main.py lines 105-129): a card counter derives
the true count and ramps the bet when it reaches BET_RAMP_START; everyone is
clamped to the available bankroll, and a positive bet is deducted at once.
The Python method also returns the bet (second component), unused by the
engine. -/
def Player.place_bet (p : Player) (decks_remaining : ℚ) : Player × ℚ :=
  let p1 :=
    if p.strategy = Strategy.card_counter then
      let tc : ℚ := qDiv (p.running_count : ℚ) (max 1 decks_remaining)
      if BET_RAMP_START ≤ tc then
        let bet_multiplier : ℤ := min MAX_BET_MULTIPLIER (max MIN_BET_MULTIPLIER (pyInt tc))
        { p with true_count := tc, current_bet := qMul p.min_bet (bet_multiplier : ℚ) }
      else
        { p with true_count := tc, current_bet := p.min_bet }
    else
      { p with current_bet := p.min_bet }
  let p2 := { p1 with current_bet := min p1.current_bet p1.bankroll }
  if 0 < p2.current_bet then
    ({ p2 with bankroll := qSub p2.bankroll p2.current_bet }, p2.current_bet)
  else
    (p2, 0)

/-- Source Player.update_count (main.py lines 131-145): Hi-Lo update, a
no-op for any player that is not a card counter. -/
def Player.update_count (p : Player) (card : Card) : Player :=
  if p.strategy ≠ Strategy.card_counter then p
  else
    let value := card.get_value
    if 2 ≤ value ∧ value ≤ 6 then
      { p with running_count := p.running_count + 1 }
    else if 10 ≤ value ∨ card.rank = Rank.rA then
      { p with running_count := p.running_count - 1 }
    else p

/-- The Hi-Lo weight of one observed card, matching the branch structure of
Player.update_count. -/
def hiLoWeight (c : Card) : ℤ :=
  if 2 ≤ c.get_value ∧ c.get_value ≤ 6 then 1
  else if 10 ≤ c.get_value ∨ c.rank = Rank.rA then -1
  else 0

/-- The three actions the strategy policy can return (the Python strings
'hit', 'stand', 'double'). -/
inductive Decision
  | hit | stand | double
deriving DecidableEq

/-- Source Player.make_decision (main.py lines 147-229), translated branch
for branch.  Note that the source computes
`soft_hand = has_ace and player_total <= 21`: any hand containing an ace
whose running total is at most 21 is classified soft, even when the ace's
contribution has already been reduced to 1. -/
def make_decision (hand : Hand) (dealer_upcard_value : ℕ) : Decision :=
  let player_total := hand.get_value
  let has_ace := hand.cards.any fun c => c.rank == Rank.rA
  let soft_hand := has_ace && decide (player_total ≤ 21)
  if hand.cards.length = 2 ∧ player_total = 21 then
    Decision.stand
  else if soft_hand then
    if 19 ≤ player_total then
      Decision.stand
    else if player_total = 18 then
      if dealer_upcard_value ∈ [2, 7, 8] then Decision.stand
      else if dealer_upcard_value ∈ [3, 4, 5, 6] then
        (if hand.cards.length = 2 then Decision.double else Decision.stand)
      else Decision.hit
    else if player_total = 17 then
      if dealer_upcard_value ∈ [3, 4, 5, 6] then
        (if hand.cards.length = 2 then Decision.double else Decision.hit)
      else Decision.hit
    else if player_total ∈ [15, 16] then
      if dealer_upcard_value ∈ [4, 5, 6] then
        (if hand.cards.length = 2 then Decision.double else Decision.hit)
      else Decision.hit
    else if player_total ∈ [13, 14] then
      if dealer_upcard_value ∈ [5, 6] then
        (if hand.cards.length = 2 then Decision.double else Decision.hit)
      else Decision.hit
    else Decision.hit
  else if 17 ≤ player_total then
    Decision.stand
  else if player_total = 16 then
    if dealer_upcard_value ∈ [2, 3, 4, 5, 6] then Decision.stand else Decision.hit
  else if player_total = 15 then
    if dealer_upcard_value ∈ [2, 3, 4, 5, 6] then Decision.stand else Decision.hit
  else if player_total = 14 then
    if dealer_upcard_value ∈ [2, 3, 4, 5, 6] then Decision.stand else Decision.hit
  else if player_total = 13 then
    if dealer_upcard_value ∈ [2, 3, 4, 5, 6] then Decision.stand else Decision.hit
  else if player_total = 12 then
    if dealer_upcard_value ∈ [4, 5, 6] then Decision.stand else Decision.hit
  else if player_total = 11 then
    (if hand.cards.length = 2 then Decision.double else Decision.hit)
  else if player_total = 10 then
    if dealer_upcard_value ≤ 9 then
      (if hand.cards.length = 2 then Decision.double else Decision.hit)
    else Decision.hit
  else if player_total = 9 then
    if dealer_upcard_value ∈ [3, 4, 5, 6] then
      (if hand.cards.length = 2 then Decision.double else Decision.hit)
    else Decision.hit
  else Decision.hit

/-- Source Player.add_winnings (main.py lines 231-232). -/
def Player.add_winnings (p : Player) (amount : ℚ) : Player :=
  { p with bankroll := qAdd p.bankroll amount }

/-- Source class Blackjack (main.py lines 234-240): the shared shoe, the
configuration, the seated players and the dealer's hand. -/
structure Blackjack where
  deck : Deck
  num_decks : ℕ
  min_bet : ℚ
  players : List Player
  dealer : Hand
deriving DecidableEq

/-- Source Blackjack.get_decks_remaining (main.py lines 245-246): a continuous
quantity, not rounded. -/
def Blackjack.get_decks_remaining (g : Blackjack) : ℚ :=
  qDiv (g.deck.cards.length : ℚ) 52

/-- One pass of the inner loop of deal_initial_cards (main.py lines 255-259):
deal one card to each player in seating order, appending it to the player's
first hand and letting that player (only) count it.  A missing card or an
empty hand list crashes the Python program, hence `none`. -/
def dealRound : Deck → List Player → Option (Deck × List Player)
  | d, [] => some (d, [])
  | d, p :: ps =>
    match d.deal with
    | none => none
    | some (c, d1) =>
      match p.hands with
      | [] => none
      | h :: hs =>
        match dealRound d1 ps with
        | none => none
        | some (d2, ps') =>
          some (d2, Player.update_count { p with hands := ⟨h.cards ++ [c]⟩ :: hs } c :: ps')

/-- Source Blackjack.deal_initial_cards (main.py lines 248-267): clear all
hands, then deal two interleaved rounds (players first, dealer second); only
the dealer's first card is shown to (and counted by) the players. -/
def deal_initial_cards (g : Blackjack) : Option Blackjack :=
  let g0 : Blackjack :=
    { g with dealer := ⟨[]⟩,
             players := g.players.map fun p => { p with hands := [⟨[]⟩] } }
  match dealRound g0.deck g0.players with
  | none => none
  | some (d1, ps1) =>
    match d1.deal with
    | none => none
    | some (c1, d2) =>
      let ps1' := ps1.map fun p => p.update_count c1
      match dealRound d2 ps1' with
      | none => none
      | some (d3, ps2) =>
        match d3.deal with
        | none => none
        | some (c2, d4) =>
          some { g0 with deck := d4, players := ps2, dealer := ⟨[c1, c2]⟩ }

/-- The hit/stand/double loop of one player's turn (main.py lines 309-333),
recursing on the remaining shoe.  On `hit` the drawn card is appended and
counted by the acting player alone, stopping on a bust; on `double` the bet
is raised by `min(current_bet, bankroll)`, exactly one card is drawn and
counted by the acting player, and the turn ends.  Drawing from an empty shoe
crashes the Python program (`None` dereference), hence `none`. -/
def playerLoop (upcard : ℕ) : List Card → Player → Hand → Option (List Card × Player × Hand)
  | [], p, h =>
    match make_decision h upcard with
    | Decision.stand => some ([], p, h)
    | _ => none
  | c :: rest, p, h =>
    match make_decision h upcard with
    | Decision.stand => some (c :: rest, p, h)
    | Decision.hit =>
      let p' := p.update_count c
      let h' : Hand := ⟨h.cards ++ [c]⟩
      if h'.is_busted then some (rest, p', h') else playerLoop upcard rest p' h'
    | Decision.double =>
      let additional_bet := min p.current_bet p.bankroll
      let p' := Player.update_count
        { p with bankroll := qSub p.bankroll additional_bet,
                 current_bet := qAdd p.current_bet additional_bet } c
      some (rest, p', ⟨h.cards ++ [c]⟩)

/-- One player's whole turn (main.py lines 297-333): a natural blackjack is
paid `bet + bet * BLACKJACK_PAYOUT` immediately and no card is drawn;
otherwise the hit/stand/double loop runs on the player's first hand. -/
def playerTurn (upcard : ℕ) (cards : List Card) (p : Player) : Option (List Card × Player) :=
  match p.hands with
  | [] => none
  | h :: hs =>
    if h.is_blackjack then
      some (cards, p.add_winnings (qAdd p.current_bet (qMul p.current_bet BLACKJACK_PAYOUT)))
    else
      match playerLoop upcard cards p h with
      | none => none
      | some (cards', p', h') => some (cards', { p' with hands := h' :: hs })

/-- The player-turn phase over the seated players in order, threading the
shoe (main.py lines 296-333). -/
def playersTurn (upcard : ℕ) : List Card → List Player → Option (List Card × List Player)
  | cards, [] => some (cards, [])
  | cards, p :: ps =>
    match playerTurn upcard cards p with
    | none => none
    | some (cards', p') =>
      match playersTurn upcard cards' ps with
      | none => none
      | some (cards'', ps') => some (cards'', p' :: ps')

/-- The dealer's drawing loop (main.py lines 343-350): while the dealer's
total is below 17, draw a card that every player gets to count.  Drawing
from an empty shoe crashes, hence `none`. -/
def dealerLoop : List Card → Hand → List Player → Option (List Card × Hand × List Player)
  | [], dealer, ps =>
    if dealer.get_value < 17 then none else some ([], dealer, ps)
  | c :: rest, dealer, ps =>
    if dealer.get_value < 17 then
      dealerLoop rest ⟨dealer.cards ++ [c]⟩ (ps.map fun p => p.update_count c)
    else some (c :: rest, dealer, ps)

/-- The settlement of one player's hands (main.py lines 356-369): a busted
hand gets nothing; otherwise a win (dealer busted or strictly higher total)
pays back twice the bet, a push pays back the bet, a loss pays nothing. -/
def settleHands (dealer_value : ℕ) (dealer_busted : Bool) (p : Player) : Player :=
  p.hands.foldl
    (fun q h =>
      if h.is_busted then q
      else if dealer_busted || decide (dealer_value < h.get_value) then
        q.add_winnings (qMul q.current_bet 2)
      else if h.get_value = dealer_value then
        q.add_winnings q.current_bet
      else q)
    p

/-- The dealer-blackjack resolution (main.py lines 289-293): each player
whose first hand is also a natural blackjack gets the bet back (push); every
other bet stays forfeited.  Reading `hands[0]` of an empty hand list would
crash, hence `none`. -/
def dealerBJPush : List Player → Option (List Player)
  | [] => some []
  | p :: ps =>
    match p.hands with
    | [] => none
    | h :: _ =>
      let p' := if h.is_blackjack then p.add_winnings p.current_bet else p
      (dealerBJPush ps).map fun ps' => p' :: ps'

/-- The reshuffle check opening a round (main.py lines 270-276): when the cut
card has been reached, the shoe is rebuilt from a freshly shuffled pile and
every card counter's running and true counts are reset to zero. -/
def reshuffleCheck (fresh : List Card) (g : Blackjack) : Blackjack :=
  if g.deck.needs_shuffle then
    { g with deck := Deck.build fresh,
             players := g.players.map fun p =>
               if p.strategy = Strategy.card_counter then
                 { p with running_count := 0, true_count := 0 }
               else p }
  else g

/-- The bet-collection phase (main.py lines 278-281): the decks-remaining
estimate is computed once, then every player places a bet. -/
def collectBets (g : Blackjack) : Blackjack :=
  let decks_remaining := g.get_decks_remaining
  { g with players := g.players.map fun p => (p.place_bet decks_remaining).1 }

/-- Source Blackjack.play_hand (main.py lines 269-369), the full round state
machine: reshuffle check, bet collection, initial deal, dealer-blackjack
check (ending the round at once on a dealer natural), player turns, then -
only if some player hand survived - hole-card reveal, dealer draws and
settlement. -/
def play_hand (fresh : List Card) (g : Blackjack) : Option Blackjack :=
  let g1 := collectBets (reshuffleCheck fresh g)
  match deal_initial_cards g1 with
  | none => none
  | some g2 =>
    match g2.dealer.cards with
    | [] => none
    | up :: restDealer =>
      if (up.get_value = 10 ∨ up.rank = Rank.rA) ∧ g2.dealer.is_blackjack then
        (dealerBJPush g2.players).map fun ps' => { g2 with players := ps' }
      else
        match playersTurn up.get_value g2.deck.cards g2.players with
        | none => none
        | some (cards2, ps2) =>
          if ps2.any fun p => p.hands.any fun h => !h.is_busted then
            match restDealer with
            | [] => none
            | hole :: _ =>
              let ps3 := ps2.map fun p => p.update_count hole
              match dealerLoop cards2 g2.dealer ps3 with
              | none => none
              | some (cards3, dealerFinal, ps4) =>
                some { g2 with
                       deck := { g2.deck with cards := cards3 },
                       dealer := dealerFinal,
                       players := ps4.map fun p =>
                         settleHands dealerFinal.get_value dealerFinal.is_busted p }
          else
            some { g2 with deck := { g2.deck with cards := cards2 }, players := ps2 }

/-- Spec formulation of the ace-conversion loop (spec section 3, Hand):
"while total > 21 and at least one Ace counted as 11 remains, convert one
Ace's contribution from 11 to 1 (subtract 10) and decrement the
convertible-ace count", written as the spec words it, for comparison with
the source's `softenAces`. -/
def specReduce : ℕ → ℕ → ℕ
  | total, aces =>
    if 21 < total ∧ 0 < aces then specReduce (total - 10) (aces - 1) else total
termination_by _total aces => aces
decreasing_by simp_wf; omega

/-- Spec formulation of the hand value (spec section 3, Hand): "sum nominal
values (Ace=11)" and then run the conversion loop, the convertible aces
being the aces of the hand. -/
def specHandValue (h : Hand) : ℕ :=
  specReduce ((h.cards.map Card.get_value).sum)
    (h.cards.countP fun c => c.rank == Rank.rA)

theorem specReduce_eq_softenAces : ∀ (aces total : ℕ), specReduce total aces = softenAces total aces := by
  intro a
  induction a with
  | zero => intro t; rw [specReduce]; simp [softenAces]
  | succ n ih =>
    intro t
    rw [specReduce]
    by_cases h : 21 < t
    · simp [softenAces, h, ih]
    · simp [softenAces, h]

theorem card_value_eq_11_iff_ace (c : Card) : (c.get_value == 11) = (c.rank == Rank.rA) := by
  rcases c with ⟨r, s⟩
  cases r <;> rfl

/-- Claim C7: the source hand value equals the spec's summation-then-soften
algorithm, the hand {Ace, Ace, 9} evaluates to 21, and a hand is a blackjack
iff it has exactly two cards of total value 21. -/
theorem hand_value_matches_spec :
    (∀ h : Hand, h.get_value = specHandValue h) ∧
    Hand.get_value ⟨[⟨Rank.rA, Suit.spades⟩, ⟨Rank.rA, Suit.hearts⟩, ⟨Rank.r9, Suit.spades⟩]⟩ = 21 ∧
    (∀ h : Hand, h.is_blackjack = true ↔ h.cards.length = 2 ∧ h.get_value = 21) := by
  refine ⟨?_, by decide, ?_⟩
  · intro h
    unfold Hand.get_value specHandValue
    rw [specReduce_eq_softenAces]
    congr 1
    exact List.countP_congr fun c _ => by rw [card_value_eq_11_iff_ace]
  · intro h
    simp [Hand.is_blackjack, Bool.and_eq_true, beq_iff_eq]

/-- Witness for C7: the spec equality and the blackjack criterion evaluated
on the concrete hand {Ace, King}. -/
theorem hand_value_matches_spec_witness :
    Hand.get_value ⟨[⟨Rank.rA, Suit.spades⟩, ⟨Rank.rK, Suit.spades⟩]⟩ =
      specHandValue ⟨[⟨Rank.rA, Suit.spades⟩, ⟨Rank.rK, Suit.spades⟩]⟩ ∧
    Hand.is_blackjack ⟨[⟨Rank.rA, Suit.spades⟩, ⟨Rank.rK, Suit.spades⟩]⟩ = true :=
  ⟨hand_value_matches_spec.1 _, (hand_value_matches_spec.2.2 _).mpr ⟨by decide, by decide⟩⟩

/-- Claim C9: the hand value is invariant under permutation of the cards,
and a non-busted hand is worth at most 21. -/
theorem value_perm_invariant :
    (∀ l l' : List Card, l.Perm l' → Hand.get_value ⟨l⟩ = Hand.get_value ⟨l'⟩) ∧
    (∀ h : Hand, h.is_busted = false → h.get_value ≤ 21) := by
  constructor
  · intro l l' hp
    unfold Hand.get_value
    rw [(hp.map Card.get_value).sum_eq, hp.countP_eq]
  · intro h hb
    have hnb : ¬ 21 < h.get_value := by simpa [Hand.is_busted] using hb
    omega

/-- Witness for C9: permutation invariance on the two orders of {Ace, 9} and
the bound on the non-busted hand {10, 9}. -/
theorem value_perm_invariant_witness :
    Hand.get_value ⟨[⟨Rank.rA, Suit.spades⟩, ⟨Rank.r9, Suit.hearts⟩]⟩ =
      Hand.get_value ⟨[⟨Rank.r9, Suit.hearts⟩, ⟨Rank.rA, Suit.spades⟩]⟩ ∧
    Hand.get_value ⟨[⟨Rank.r10, Suit.spades⟩, ⟨Rank.r9, Suit.spades⟩]⟩ ≤ 21 :=
  ⟨value_perm_invariant.1 _ _ (List.Perm.swap _ _ _), value_perm_invariant.2 _ (by decide)⟩

/-- Every ace counted as 1: the minimum possible contribution of a card.  A
hand is hard in the spec's sense exactly when its value equals the sum of
these minima, i.e. no ace is counted as 11. -/
def lowValue (c : Card) : ℕ :=
  if c.rank = Rank.rA then 1 else c.get_value

/-- Claim C1 (refuted, code bug): the hand {Ace, 5, 8} has value 14 equal to
its all-aces-low sum, so it is a hard 13-16 hand in the spec's sense, yet
against dealer upcard 2 the policy returns hit, because the source classifies
any ace-holding hand of total at most 21 as soft ("hands with an ace counted
as 11" by its own comment).  An ace-free hard 14 against the same upcard
stands, as the claim demands. -/
theorem hard_ace_hand_hits_vs_low_upcard :
    Hand.get_value ⟨[⟨Rank.rA, Suit.spades⟩, ⟨Rank.r5, Suit.spades⟩, ⟨Rank.r8, Suit.spades⟩]⟩ = 14 ∧
    ((⟨[⟨Rank.rA, Suit.spades⟩, ⟨Rank.r5, Suit.spades⟩, ⟨Rank.r8, Suit.spades⟩]⟩ : Hand).cards.map lowValue).sum = 14 ∧
    make_decision ⟨[⟨Rank.rA, Suit.spades⟩, ⟨Rank.r5, Suit.spades⟩, ⟨Rank.r8, Suit.spades⟩]⟩ 2 = Decision.hit ∧
    make_decision ⟨[⟨Rank.r10, Suit.spades⟩, ⟨Rank.r4, Suit.spades⟩]⟩ 2 = Decision.stand := by
  decide

/-- Claim C3 (refuted, code bug): drawing from a shoe with zero cards
remaining silently returns the sentinel `None` (modelled `none`) instead of
failing loudly; drawing from a nonempty shoe pops the front card. -/
theorem deal_empty_returns_sentinel :
    Deck.deal ⟨[], 0⟩ = none ∧
    Deck.deal ⟨[⟨Rank.r5, Suit.spades⟩], 0⟩ = some (⟨Rank.r5, Suit.spades⟩, ⟨[], 0⟩) := by
  decide

theorem update_count_non_counter (p : Player) (c : Card)
    (hs : p.strategy ≠ Strategy.card_counter) : p.update_count c = p := by
  unfold Player.update_count
  simp [hs]

theorem update_count_running_count (p : Player) (c : Card) :
    (p.update_count c).running_count =
      p.running_count + (if p.strategy = Strategy.card_counter then hiLoWeight c else 0) := by
  by_cases hs : p.strategy = Strategy.card_counter
  · unfold Player.update_count hiLoWeight
    simp only [hs, ne_eq, not_true_eq_false, if_false, if_pos]
    split
    · simp
    · split
      · dsimp only
        omega
      · simp
  · rw [update_count_non_counter p c hs, if_neg hs, add_zero]

theorem update_count_fields (p : Player) (c : Card) :
    (p.update_count c).bankroll = p.bankroll ∧
    (p.update_count c).min_bet = p.min_bet ∧
    (p.update_count c).current_bet = p.current_bet ∧
    (p.update_count c).hands = p.hands ∧
    (p.update_count c).strategy = p.strategy ∧
    (p.update_count c).true_count = p.true_count := by
  unfold Player.update_count
  split
  · exact ⟨rfl, rfl, rfl, rfl, rfl, rfl⟩
  · dsimp only
    split
    · exact ⟨rfl, rfl, rfl, rfl, rfl, rfl⟩
    · split
      · exact ⟨rfl, rfl, rfl, rfl, rfl, rfl⟩
      · exact ⟨rfl, rfl, rfl, rfl, rfl, rfl⟩

/-- Claim C8: a card counter's running count moves by +1 on ranks 2-6, by 0
on ranks 7-9 and by -1 on 10/J/Q/K/A; any other strategy ignores the card;
and when the reshuffle threshold is reached at the start of a round the
rebuilt shoe comes with every card counter's running count reset to 0. -/
theorem hi_lo_counting (p : Player) (c : Card) (fresh : List Card) (g : Blackjack) :
    (p.strategy = Strategy.card_counter →
      (p.update_count c).running_count = p.running_count +
        (if c.rank ∈ [Rank.r2, Rank.r3, Rank.r4, Rank.r5, Rank.r6] then 1
         else if c.rank ∈ [Rank.r7, Rank.r8, Rank.r9] then 0 else -1)) ∧
    (p.strategy ≠ Strategy.card_counter → p.update_count c = p) ∧
    (g.deck.needs_shuffle = true →
      ∀ q ∈ (reshuffleCheck fresh g).players, q.strategy = Strategy.card_counter →
        q.running_count = 0) := by
  refine ⟨fun hs => ?_, fun hs => update_count_non_counter p c hs, fun hshuf q hq hqc => ?_⟩
  · rw [update_count_running_count, if_pos hs]
    rcases c with ⟨r, s⟩
    cases r <;> simp [hiLoWeight, Card.get_value]
  · unfold reshuffleCheck at hq
    rw [if_pos hshuf] at hq
    simp only [List.mem_map] at hq
    obtain ⟨q0, hq0, rfl⟩ := hq
    by_cases h0 : q0.strategy = Strategy.card_counter
    · simp [h0]
    · rw [if_neg h0] at hqc ⊢
      exact absurd hqc h0

/-- Witness helper: a card-counting player with a nonzero running count. -/
def witnessCounter : Player :=
  { bankroll := 100, min_bet := 10, current_bet := 10, hands := [],
    strategy := Strategy.card_counter, running_count := 3, true_count := 0 }

/-- Witness helper: the same player using the basic strategy. -/
def witnessBasic : Player :=
  { witnessCounter with strategy := Strategy.basic }

/-- Witness helper: a game whose shoe has reached the cut card. -/
def witnessShuffleGame : Blackjack :=
  { deck := ⟨[], 1⟩, num_decks := 1, min_bet := 10,
    players := [witnessCounter], dealer := ⟨[]⟩ }

/-- Witness for C8: a 5 moves a counter from 3 to 4, a basic player is
untouched, and the counter seated at a reshuffling table reads count 0. -/
theorem hi_lo_counting_witness :
    (witnessCounter.update_count ⟨Rank.r5, Suit.spades⟩).running_count = 4 ∧
    witnessBasic.update_count ⟨Rank.r5, Suit.spades⟩ = witnessBasic ∧
    ((reshuffleCheck [] witnessShuffleGame).players.headD witnessBasic).running_count = 0 := by
  refine ⟨?_, ?_, ?_⟩
  · have h := (hi_lo_counting witnessCounter ⟨Rank.r5, Suit.spades⟩ [] witnessShuffleGame).1 rfl
    exact h.trans (by decide)
  · exact (hi_lo_counting witnessBasic ⟨Rank.r5, Suit.spades⟩ [] witnessShuffleGame).2.1 (by decide)
  · have h := (hi_lo_counting witnessBasic ⟨Rank.r5, Suit.spades⟩ [] witnessShuffleGame).2.2 (by decide)
    exact h _ (by decide) (by decide)

theorem pyInt_eq_floor_of_nonneg (q : ℚ) (h : 0 ≤ q) : pyInt q = ⌊q⌋ := by
  unfold pyInt
  rw [if_neg (not_lt.mpr h)]
  exact ratFloor_eq q

/-- Claim C4: a card counter with nonnegative bankroll records the true
count running_count / max(1, decks_remaining), bets
min_bet * clamp(floor(true_count), 1, 5) when the true count is at least 2
and min_bet otherwise, and the bet is clamped to the bankroll and deducted
from it immediately. -/
theorem counter_bet_sizing (p : Player) (dr : ℚ)
    (hs : p.strategy = Strategy.card_counter) (hb : 0 ≤ p.bankroll) (hm : 0 ≤ p.min_bet) :
    ((p.place_bet dr).1).true_count = (p.running_count : ℚ) / max 1 dr ∧
    ((p.place_bet dr).1).current_bet =
      min (if 2 ≤ (p.running_count : ℚ) / max 1 dr then
             p.min_bet * ((min 5 (max 1 ⌊(p.running_count : ℚ) / max 1 dr⌋) : ℤ) : ℚ)
           else p.min_bet)
        p.bankroll ∧
    ((p.place_bet dr).1).bankroll =
      p.bankroll -
        min (if 2 ≤ (p.running_count : ℚ) / max 1 dr then
               p.min_bet * ((min 5 (max 1 ⌊(p.running_count : ℚ) / max 1 dr⌋) : ℤ) : ℚ)
             else p.min_bet)
          p.bankroll := by
  unfold Player.place_bet BET_RAMP_START MAX_BET_MULTIPLIER MIN_BET_MULTIPLIER
  rw [if_pos hs]
  simp only [qDiv_eq, qMul_eq, qSub_eq]
  by_cases hramp : (2:ℚ) ≤ (p.running_count : ℚ) / max 1 dr
  · rw [if_pos hramp, if_pos hramp,
      pyInt_eq_floor_of_nonneg _ (le_trans (by norm_num) hramp)]
    dsimp only
    have hmult : (1:ℤ) ≤ min 5 (max 1 ⌊(p.running_count : ℚ) / max 1 dr⌋) :=
      le_min (by norm_num) (le_max_left 1 _)
    have hbet : 0 ≤ p.min_bet * ((min 5 (max 1 ⌊(p.running_count : ℚ) / max 1 dr⌋) : ℤ) : ℚ) :=
      mul_nonneg hm (by exact_mod_cast le_trans zero_le_one hmult)
    by_cases hpos :
        0 < min (p.min_bet * ((min 5 (max 1 ⌊(p.running_count : ℚ) / max 1 dr⌋) : ℤ) : ℚ)) p.bankroll
    · rw [if_pos hpos]
      exact ⟨rfl, rfl, rfl⟩
    · rw [if_neg hpos]
      have h0 :
          min (p.min_bet * ((min 5 (max 1 ⌊(p.running_count : ℚ) / max 1 dr⌋) : ℤ) : ℚ)) p.bankroll
            = 0 :=
        le_antisymm (not_lt.mp hpos) (le_min hbet hb)
      refine ⟨rfl, rfl, ?_⟩
      rw [h0, sub_zero]
  · rw [if_neg hramp, if_neg hramp]
    dsimp only
    by_cases hpos : 0 < min p.min_bet p.bankroll
    · rw [if_pos hpos]
      exact ⟨rfl, rfl, rfl⟩
    · rw [if_neg hpos]
      have h0 : min p.min_bet p.bankroll = 0 :=
        le_antisymm (not_lt.mp hpos) (le_min hm hb)
      refine ⟨rfl, rfl, ?_⟩
      rw [h0, sub_zero]

/-- Witness helper: a counter whose true count will be 17/5 = 3.4. -/
def c4High : Player :=
  { bankroll := 1000, min_bet := 10, current_bet := 10, hands := [],
    strategy := Strategy.card_counter, running_count := 17, true_count := 0 }

/-- Witness helper: a counter whose true count will be 1. -/
def c4Low : Player :=
  { c4High with running_count := 5 }

/-- Witness for C4: with min_bet 10 and five decks remaining, a running
count of 17 (true count 3.4) bets 30, a running count of 5 (true count 1)
bets 10, both deducted at once. -/
theorem counter_bet_sizing_witness :
    ((c4High.place_bet 5).1).current_bet = 30 ∧
    ((c4High.place_bet 5).1).bankroll = 970 ∧
    ((c4Low.place_bet 5).1).current_bet = 10 ∧
    ((c4Low.place_bet 5).1).bankroll = 990 := by
  obtain ⟨-, h2, h3⟩ := counter_bet_sizing c4High 5 rfl (by decide) (by decide)
  obtain ⟨-, h5, h6⟩ := counter_bet_sizing c4Low 5 rfl (by decide) (by decide)
  refine ⟨h2.trans ?_, h3.trans ?_, h5.trans ?_, h6.trans ?_⟩ <;>
    norm_num [c4High, c4Low, max_def, min_def]

/-- Claim C5: settlement of a player holding one non-busted hand credits
exactly twice the bet when the dealer busted or the player's total is
strictly higher, exactly the bet on equal totals, and nothing on a lower
total; a busted hand is left untouched (nothing credited). -/
theorem settlement_payouts (dealer_value : ℕ) (dealer_busted : Bool) (p : Player) (h : Hand)
    (hh : p.hands = [h]) (hdb : dealer_busted = true ↔ 21 < dealer_value) :
    (h.is_busted = false →
      ((dealer_busted = true ∨ dealer_value < h.get_value) →
        (settleHands dealer_value dealer_busted p).bankroll = p.bankroll + p.current_bet * 2) ∧
      (h.get_value = dealer_value →
        (settleHands dealer_value dealer_busted p).bankroll = p.bankroll + p.current_bet) ∧
      (h.get_value < dealer_value → dealer_busted = false →
        (settleHands dealer_value dealer_busted p).bankroll = p.bankroll)) ∧
    (h.is_busted = true → settleHands dealer_value dealer_busted p = p) := by
  unfold settleHands
  rw [hh]
  simp only [List.foldl_cons, List.foldl_nil]
  constructor
  · intro hnb
    have hv : ¬ 21 < h.get_value := by simpa [Hand.is_busted] using hnb
    rw [if_neg (by simp [hnb])]
    refine ⟨?_, ?_, ?_⟩
    · intro hwin
      have hc : (dealer_busted || decide (dealer_value < h.get_value)) = true := by
        rcases hwin with h1 | h1
        · simp [h1]
        · simp [h1]
      rw [if_pos hc]
      unfold Player.add_winnings
      rw [qAdd_eq, qMul_eq]
    · intro hpush
      have hnd : dealer_busted = false := by
        rcases Bool.eq_false_or_eq_true dealer_busted with h1 | h1
        · exact absurd (hdb.mp h1) (by omega)
        · exact h1
      have hc : (dealer_busted || decide (dealer_value < h.get_value)) = false := by
        simp [hnd]
        omega
      rw [if_neg (by simp [hc]), if_pos hpush]
      unfold Player.add_winnings
      rw [qAdd_eq]
    · intro hlt hnd
      have hc : (dealer_busted || decide (dealer_value < h.get_value)) = false := by
        simp [hnd]
        omega
      rw [if_neg (by simp [hc]), if_neg (by omega)]
  · intro hbust
    rw [if_pos hbust]

/-- Witness helper: a basic player holding the single hand {10, 9}. -/
def c5Player : Player :=
  { bankroll := 100, min_bet := 10, current_bet := 10,
    hands := [⟨[⟨Rank.r10, Suit.spades⟩, ⟨Rank.r9, Suit.spades⟩]⟩],
    strategy := Strategy.basic, running_count := 0, true_count := 0 }

/-- Witness for C5: the hand {10, 9} = 19 against a standing dealer 17 is
credited exactly twice its bet of 10, taking the bankroll from 100 to 120. -/
theorem settlement_payouts_witness :
    (settleHands 17 false c5Player).bankroll = 120 := by
  have h := ((settlement_payouts 17 false c5Player
    ⟨[⟨Rank.r10, Suit.spades⟩, ⟨Rank.r9, Suit.spades⟩]⟩ rfl (by decide)).1
      (by decide)).1 (Or.inr (by decide))
  rw [h]
  norm_num [c5Player]

theorem dealRound_singleton :
    ∀ (ps : List Player) (d d' : Deck) (ps' : List Player),
      dealRound d ps = some (d', ps') →
      (∀ p ∈ ps, ∃ h, p.hands = [h]) →
      ∀ p' ∈ ps', ∃ h, p'.hands = [h] := by
  intro ps
  induction ps with
  | nil =>
    intro d d' ps' hrun hin p' hp'
    unfold dealRound at hrun
    simp only [Option.some.injEq, Prod.mk.injEq] at hrun
    obtain ⟨-, rfl⟩ := hrun
    exact absurd hp' (List.not_mem_nil p')
  | cons p ps ih =>
    intro d d' ps' hrun hin p' hp'
    unfold dealRound at hrun
    split at hrun
    · exact Option.noConfusion hrun
    · next c d1 heq1 =>
      split at hrun
      · exact Option.noConfusion hrun
      · next h hs heq2 =>
        split at hrun
        · exact Option.noConfusion hrun
        · next d2 ps2 heq3 =>
          simp only [Option.some.injEq, Prod.mk.injEq] at hrun
          obtain ⟨rfl, rfl⟩ := hrun
          rcases List.mem_cons.mp hp' with rfl | hmem
          · obtain ⟨h0, hh0⟩ := hin p (List.mem_cons_self p ps)
            rw [hh0] at heq2
            obtain ⟨rfl, rfl⟩ := List.cons.inj heq2
            refine ⟨⟨h0.cards ++ [c]⟩, ?_⟩
            rw [(update_count_fields _ c).2.2.2.1]
          · exact ih d1 d2 ps2 heq3 (fun q hq => hin q (List.mem_cons_of_mem p hq)) p' hmem

theorem deal_initial_cards_singleton (g g2 : Blackjack)
    (hrun : deal_initial_cards g = some g2) :
    ∀ p ∈ g2.players, ∃ h, p.hands = [h] := by
  unfold deal_initial_cards at hrun
  dsimp only at hrun
  split at hrun
  · exact Option.noConfusion hrun
  · next d1 ps1 heq1 =>
    split at hrun
    · exact Option.noConfusion hrun
    · next c1 d2 heq2 =>
      split at hrun
      · exact Option.noConfusion hrun
      · next d3 ps2 heq3 =>
        split at hrun
        · exact Option.noConfusion hrun
        · next c2 d4 heq4 =>
          simp only [Option.some.injEq] at hrun
          subst hrun
          intro p hp
          have hstep1 : ∀ q ∈ ps1, ∃ h, q.hands = [h] := by
            refine dealRound_singleton _ _ _ _ heq1 ?_
            intro q hq
            simp only [List.mem_map] at hq
            obtain ⟨q0, -, rfl⟩ := hq
            exact ⟨⟨[]⟩, rfl⟩
          have hstep2 : ∀ q ∈ ps1.map (fun p => p.update_count c1), ∃ h, q.hands = [h] := by
            intro q hq
            simp only [List.mem_map] at hq
            obtain ⟨q0, hq0, rfl⟩ := hq
            obtain ⟨h, hh⟩ := hstep1 q0 hq0
            refine ⟨h, ?_⟩
            rw [(update_count_fields q0 c1).2.2.2.1, hh]
          exact dealRound_singleton _ _ _ _ heq3 hstep2 p hp

theorem dealerBJPush_spec :
    ∀ ps : List Player, (∀ p ∈ ps, p.hands ≠ []) →
      ∃ ps', dealerBJPush ps = some ps' ∧
        List.Forall₂ (fun p p' =>
          p'.hands = p.hands ∧ p'.current_bet = p.current_bet ∧ p'.strategy = p.strategy ∧
          ∀ h hs, p.hands = h :: hs →
            p'.bankroll = p.bankroll + (if h.is_blackjack then p.current_bet else 0)) ps ps' := by
  intro ps
  induction ps with
  | nil => exact fun _ => ⟨[], rfl, List.Forall₂.nil⟩
  | cons p ps ih =>
    intro hin
    obtain ⟨ps', hrun, hrel⟩ := ih fun q hq => hin q (List.mem_cons_of_mem p hq)
    cases hh : p.hands with
    | nil => exact absurd hh (hin p (List.mem_cons_self p ps))
    | cons h hs =>
      refine ⟨(if h.is_blackjack then p.add_winnings p.current_bet else p) :: ps', ?_, ?_⟩
      · unfold dealerBJPush
        rw [hh]
        dsimp only
        rw [hrun]
        rfl
      · refine List.Forall₂.cons ⟨?_, ?_, ?_, ?_⟩ hrel
      
        · by_cases hbj : h.is_blackjack
          · rw [if_pos hbj]
            rfl
          · rw [if_neg hbj]
        · by_cases hbj : h.is_blackjack
          · rw [if_pos hbj]
            rfl
          · rw [if_neg hbj]
        · by_cases hbj : h.is_blackjack
          · rw [if_pos hbj]
            rfl
          · rw [if_neg hbj]
        · intro h1 hs1 hEq
          rw [hh] at hEq
          obtain ⟨rfl, rfl⟩ := List.cons.inj hEq
          by_cases hbj : h.is_blackjack
          · rw [if_pos hbj, if_pos hbj]
            unfold Player.add_winnings
            dsimp only
            rw [qAdd_eq]
          · rw [if_neg hbj, if_neg hbj, add_zero]

/-- Claim C6: when the dealer's up-card is worth 10 or is an ace and the
two-card dealer hand is a natural 21, the round ends right at the
dealer-blackjack check: `play_hand` returns the dealt position unchanged
except that each player whose own hand is a natural blackjack is credited
exactly its bet back (push); every other player's bet stays forfeited, the
deck, the dealer hand and all player hands are exactly as dealt, so no
player turn and no dealer turn is executed. -/
theorem dealer_blackjack_push (fresh : List Card) (g g2 : Blackjack) (up : Card) (rest : List Card)
    (hdeal : deal_initial_cards (collectBets (reshuffleCheck fresh g)) = some g2)
    (hcards : g2.dealer.cards = up :: rest)
    (hcond : (up.get_value = 10 ∨ up.rank = Rank.rA) ∧ g2.dealer.is_blackjack = true) :
    ∃ ps', dealerBJPush g2.players = some ps' ∧
      play_hand fresh g = some { g2 with players := ps' } ∧
      List.Forall₂ (fun p p' =>
        p'.hands = p.hands ∧ p'.current_bet = p.current_bet ∧ p'.strategy = p.strategy ∧
        ∀ h hs, p.hands = h :: hs →
          p'.bankroll = p.bankroll + (if h.is_blackjack then p.current_bet else 0))
        g2.players ps' := by
  have hsingle := deal_initial_cards_singleton _ _ hdeal
  obtain ⟨ps', hpush, hrel⟩ := dealerBJPush_spec g2.players
    (fun p hp => by obtain ⟨h, hh⟩ := hsingle p hp; simp [hh])
  refine ⟨ps', hpush, ?_, hrel⟩
  unfold play_hand
  dsimp only
  rw [hdeal]
  dsimp only
  rw [hcards]
  dsimp only
  rw [if_pos hcond, hpush]
  rfl

/-- Witness helper: a basic-strategy player at the default table. -/
def c6Basic : Player :=
  { bankroll := 1000, min_bet := 10, current_bet := 10, hands := [],
    strategy := Strategy.basic, running_count := 0, true_count := 0 }

/-- Witness helper: a card counter at the default table. -/
def c6Counter : Player :=
  { c6Basic with strategy := Strategy.card_counter }

/-- Witness helper: a shoe whose deal order gives player 1 the hand {10, 9},
player 2 the hand {Ace, Queen} and the dealer {Ace up, King hole}. -/
def c6Deck : List Card :=
  [⟨Rank.r10, Suit.spades⟩, ⟨Rank.rA, Suit.hearts⟩, ⟨Rank.rA, Suit.spades⟩,
   ⟨Rank.r9, Suit.spades⟩, ⟨Rank.rQ, Suit.hearts⟩, ⟨Rank.rK, Suit.spades⟩]

/-- Witness helper: the table before the dealer-blackjack round. -/
def c6Game : Blackjack :=
  { deck := ⟨c6Deck, 0⟩, num_decks := 6, min_bet := 10,
    players := [c6Basic, c6Counter], dealer := ⟨[]⟩ }

/-- Witness helper: an arbitrary game state for `Option.getD`. -/
def junkBlackjack : Blackjack :=
  { deck := ⟨[], 0⟩, num_decks := 0, min_bet := 0, players := [], dealer := ⟨[]⟩ }

/-- Witness helper: the `c6Game` position right after the initial deal. -/
def c6Dealt : Blackjack :=
  (deal_initial_cards (collectBets (reshuffleCheck [] c6Game))).getD junkBlackjack

/-- Witness for C6: in the dealt position the dealer shows an ace over a
natural 21, so the round ends at the blackjack check; the {10, 9} player
ends at 990 (net -10) and the {Ace, Queen} player pushes back to 1000
(net 0). -/
theorem dealer_blackjack_push_witness :
    (∃ ps', dealerBJPush c6Dealt.players = some ps' ∧
      play_hand [] c6Game = some { c6Dealt with players := ps' } ∧
      List.Forall₂ (fun p p' =>
        p'.hands = p.hands ∧ p'.current_bet = p.current_bet ∧ p'.strategy = p.strategy ∧
        ∀ h hs, p.hands = h :: hs →
          p'.bankroll = p.bankroll + (if h.is_blackjack then p.current_bet else 0))
        c6Dealt.players ps') ∧
    (play_hand [] c6Game).map (fun g => g.players.map Player.bankroll) = some [990, 1000] := by
  refine ⟨dealer_blackjack_push [] c6Game c6Dealt ⟨Rank.rA, Suit.spades⟩ [⟨Rank.rK, Suit.spades⟩]
      (by decide) (by decide) (by decide), by decide⟩

theorem playerLoop_drawn (upcard : ℕ) :
    ∀ (cards : List Card) (p : Player) (h : Hand) (cards' : List Card) (p' : Player) (h' : Hand),
      playerLoop upcard cards p h = some (cards', p', h') →
      ∃ drawn : List Card,
        h'.cards = h.cards ++ drawn ∧
        cards = drawn ++ cards' ∧
        p'.strategy = p.strategy ∧
        p'.hands = p.hands ∧
        p'.running_count = p.running_count +
          (if p.strategy = Strategy.card_counter then (drawn.map hiLoWeight).sum else 0) := by
  intro cards
  induction cards with
  | nil =>
    intro p h cards' p' h' hrun
    unfold playerLoop at hrun
    split at hrun
    · simp only [Option.some.injEq, Prod.mk.injEq] at hrun
      obtain ⟨rfl, rfl, rfl⟩ := hrun
      exact ⟨[], by simp, by simp, rfl, rfl, by simp⟩
    · exact Option.noConfusion hrun
  | cons c rest ih =>
    intro p h cards' p' h' hrun
    unfold playerLoop at hrun
    split at hrun
    · simp only [Option.some.injEq, Prod.mk.injEq] at hrun
      obtain ⟨rfl, rfl, rfl⟩ := hrun
      exact ⟨[], by simp, by simp, rfl, rfl, by simp⟩
    · dsimp only at hrun
      split at hrun
      · simp only [Option.some.injEq, Prod.mk.injEq] at hrun
        obtain ⟨rfl, rfl, rfl⟩ := hrun
        refine ⟨[c], rfl, rfl, (update_count_fields p c).2.2.2.2.1,
          (update_count_fields p c).2.2.2.1, ?_⟩
        rw [update_count_running_count]
        by_cases hst : p.strategy = Strategy.card_counter
        · simp [hst]
        · simp [hst]
      · obtain ⟨drawn1, hd1, hd2, hd3, hd4, hd5⟩ :=
          ih (p.update_count c) ⟨h.cards ++ [c]⟩ cards' p' h' hrun
        refine ⟨c :: drawn1, ?_, ?_, ?_, ?_, ?_⟩
        · rw [hd1]
          simp
        · rw [hd2]
          rfl
        · rw [hd3, (update_count_fields p c).2.2.2.2.1]
        · rw [hd4, (update_count_fields p c).2.2.2.1]
        · rw [hd5, (update_count_fields p c).2.2.2.2.1, update_count_running_count]
          by_cases hst : p.strategy = Strategy.card_counter
          · simp only [hst, if_pos, List.map_cons, List.sum_cons]
            ring
          · simp [hst]
    · dsimp only at hrun
      simp only [Option.some.injEq, Prod.mk.injEq] at hrun
      obtain ⟨rfl, rfl, rfl⟩ := hrun
      refine ⟨[c], rfl, rfl, (update_count_fields _ c).2.2.2.2.1,
        (update_count_fields _ c).2.2.2.1, ?_⟩
      rw [update_count_running_count]
      by_cases hst : p.strategy = Strategy.card_counter
      · simp [hst]
      · simp [hst]

theorem playerTurn_drawn (upcard : ℕ) (cards : List Card) (p : Player) (cards' : List Card)
    (p' : Player) (hrun : playerTurn upcard cards p = some (cards', p')) :
    p'.strategy = p.strategy ∧
    ∃ (h : Hand) (hs : List Hand) (drawn : List Card),
      p.hands = h :: hs ∧
      p'.hands = Hand.mk (h.cards ++ drawn) :: hs ∧
      p'.running_count = p.running_count +
        (if p.strategy = Strategy.card_counter then (drawn.map hiLoWeight).sum else 0) := by
  unfold playerTurn at hrun
  split at hrun
  · exact Option.noConfusion hrun
  · next h hs heq =>
    split at hrun
    · simp only [Option.some.injEq, Prod.mk.injEq] at hrun
      obtain ⟨rfl, rfl⟩ := hrun
      refine ⟨rfl, h, hs, [], heq, ?_, ?_⟩
      · unfold Player.add_winnings
        dsimp only
        rw [heq]
        simp
      · unfold Player.add_winnings
        dsimp only
        simp
    · split at hrun
      · exact Option.noConfusion hrun
      · next cards2 p2 h2 heq2 =>
        simp only [Option.some.injEq, Prod.mk.injEq] at hrun
        obtain ⟨rfl, rfl⟩ := hrun
        obtain ⟨drawn, hd1, hd2, hd3, hd4, hd5⟩ :=
          playerLoop_drawn upcard cards p h cards2 p2 h2 heq2
        exact ⟨hd3, h, hs, drawn, heq, by rw [← hd1], hd5⟩

/-- Claim C2 (amended): during the player-turn phase each player's running
count is updated only with the player's own draws: for every successful
player-turn phase, each player's first hand is extended by exactly the cards
it drew itself, and its running count changes exactly by the Hi-Lo sum of
those cards when it is a card counter and not at all otherwise; no player
observes another player's draws. -/
theorem players_observe_only_own_draws (upcard : ℕ) :
    ∀ (ps : List Player) (cards cards' : List Card) (ps' : List Player),
      playersTurn upcard cards ps = some (cards', ps') →
      List.Forall₂ (fun p p' =>
        p'.strategy = p.strategy ∧
        ∃ (h : Hand) (hs : List Hand) (drawn : List Card),
          p.hands = h :: hs ∧
          p'.hands = Hand.mk (h.cards ++ drawn) :: hs ∧
          p'.running_count = p.running_count +
            (if p.strategy = Strategy.card_counter then (drawn.map hiLoWeight).sum else 0))
        ps ps' := by
  intro ps
  induction ps with
  | nil =>
    intro cards cards' ps' hrun
    unfold playersTurn at hrun
    simp only [Option.some.injEq, Prod.mk.injEq] at hrun
    obtain ⟨-, rfl⟩ := hrun
    exact List.Forall₂.nil
  | cons p ps ih =>
    intro cards cards' ps' hrun
    unfold playersTurn at hrun
    split at hrun
    · exact Option.noConfusion hrun
    · next cards1 p1 heq1 =>
      split at hrun
      · exact Option.noConfusion hrun
      · next cards2 ps2 heq2 =>
        simp only [Option.some.injEq, Prod.mk.injEq] at hrun
        obtain ⟨rfl, rfl⟩ := hrun
        exact List.Forall₂.cons (playerTurn_drawn upcard cards p cards1 p1 heq1)
          (ih cards1 cards2 ps2 heq2)

/-- Counterexample helper: a basic-strategy player about to play a round. -/
def c2Basic : Player :=
  { bankroll := 1000, min_bet := 10, current_bet := 10, hands := [],
    strategy := Strategy.basic, running_count := 0, true_count := 0 }

/-- Counterexample helper: the card counter seated next to `c2Basic`. -/
def c2Counter : Player :=
  { c2Basic with strategy := Strategy.card_counter }

/-- Counterexample helper: a shoe dealing player 1 the hand {10, 6} (which
hits and draws the 5), player 2 the hand {10, 9} (which stands), and the
dealer {7 up, 10 hole} (which stands on 17). -/
def c2Deck : List Card :=
  [⟨Rank.r10, Suit.spades⟩, ⟨Rank.r10, Suit.hearts⟩, ⟨Rank.r7, Suit.spades⟩,
   ⟨Rank.r6, Suit.spades⟩, ⟨Rank.r9, Suit.spades⟩, ⟨Rank.r10, Suit.diamonds⟩,
   ⟨Rank.r5, Suit.spades⟩]

/-- Counterexample helper: the table for the round refuting claim C2. -/
def c2Game : Blackjack :=
  { deck := ⟨c2Deck, 0⟩, num_decks := 6, min_bet := 10,
    players := [c2Basic, c2Counter], dealer := ⟨[]⟩ }

/-- Claim C2 is false on the code: in this round the basic player draws the
5 during the play phase (its final hand is {10, 6, 5}), a card with Hi-Lo
weight +1, yet the card counter ends the round with running count -2, which
is exactly the Hi-Lo sum of its own two cards, the dealer's up-card and hole
card; the claimed sum including the other player's draw would be -1.  The
engine (main.py line 315) passes a hit card only to the player who drew it. -/
theorem counter_misses_other_players_draws :
    ((play_hand [] c2Game).map fun g =>
        (g.players.map fun p => p.running_count,
         g.players.map fun p => p.hands.map fun h => h.cards.map Card.rank))
      = some ([0, -2],
              [[[Rank.r10, Rank.r6, Rank.r5]], [[Rank.r10, Rank.r9]]]) ∧
    hiLoWeight ⟨Rank.r5, Suit.spades⟩ = 1 ∧
    hiLoWeight ⟨Rank.r10, Suit.hearts⟩ + hiLoWeight ⟨Rank.r9, Suit.spades⟩ +
      hiLoWeight ⟨Rank.r7, Suit.spades⟩ + hiLoWeight ⟨Rank.r10, Suit.diamonds⟩ +
      hiLoWeight ⟨Rank.r5, Suit.spades⟩ = -1 := by
  refine ⟨by decide, by decide, by decide⟩

/-- Witness helper: a card counter holding {10, 6} who will hit and draw
once during its turn. -/
def c2wPlayer : Player :=
  { bankroll := 990, min_bet := 10, current_bet := 10,
    hands := [⟨[⟨Rank.r10, Suit.spades⟩, ⟨Rank.r6, Suit.spades⟩]⟩],
    strategy := Strategy.card_counter, running_count := 0, true_count := 0 }

/-- Witness for the amended C2: the counter holding {10, 6} against upcard 7
hits, draws the 5 itself and its running count moves by exactly that card's
Hi-Lo weight. -/
theorem players_observe_only_own_draws_witness :
    List.Forall₂ (fun p p' =>
        p'.strategy = p.strategy ∧
        ∃ (h : Hand) (hs : List Hand) (drawn : List Card),
          p.hands = h :: hs ∧
          p'.hands = Hand.mk (h.cards ++ drawn) :: hs ∧
          p'.running_count = p.running_count +
            (if p.strategy = Strategy.card_counter then (drawn.map hiLoWeight).sum else 0))
      [c2wPlayer]
      (((playersTurn 7 [⟨Rank.r5, Suit.spades⟩] [c2wPlayer]).getD ([], [])).2) :=
  players_observe_only_own_draws 7 [c2wPlayer] [⟨Rank.r5, Suit.spades⟩]
    (((playersTurn 7 [⟨Rank.r5, Suit.spades⟩] [c2wPlayer]).getD ([], [])).1)
    (((playersTurn 7 [⟨Rank.r5, Suit.spades⟩] [c2wPlayer]).getD ([], [])).2)
    (by decide)

theorem basic_bet_sizing (p : Player) (dr : ℚ) (hs : p.strategy ≠ Strategy.card_counter)
    (hb : 0 ≤ p.bankroll) (hm : 0 ≤ p.min_bet) :
    ((p.place_bet dr).1).current_bet = min p.min_bet p.bankroll ∧
    ((p.place_bet dr).1).bankroll = p.bankroll - min p.min_bet p.bankroll := by
  unfold Player.place_bet
  rw [if_neg hs]
  dsimp only
  simp only [qSub_eq]
  by_cases hpos : 0 < min p.min_bet p.bankroll
  · rw [if_pos hpos]
    exact ⟨rfl, rfl⟩
  · rw [if_neg hpos]
    have h0 : min p.min_bet p.bankroll = 0 := le_antisymm (not_lt.mp hpos) (le_min hm hb)
    exact ⟨rfl, by rw [h0, sub_zero]⟩

theorem place_bet_moneyOK (p : Player) (dr : ℚ) (hb : 0 ≤ p.bankroll) (hm : 0 ≤ p.min_bet) :
    0 ≤ ((p.place_bet dr).1).bankroll ∧ 0 ≤ ((p.place_bet dr).1).current_bet := by
  by_cases hs : p.strategy = Strategy.card_counter
  · obtain ⟨-, hcb, hbk⟩ := counter_bet_sizing p dr hs hb hm
    have hbet : (0:ℚ) ≤
        (if 2 ≤ (p.running_count : ℚ) / max 1 dr then
           p.min_bet * ((min 5 (max 1 ⌊(p.running_count : ℚ) / max 1 dr⌋) : ℤ) : ℚ)
         else p.min_bet) := by
      split
      · refine mul_nonneg hm ?_
        have h1 : (1:ℤ) ≤ min 5 (max 1 ⌊(p.running_count : ℚ) / max 1 dr⌋) :=
          le_min (by norm_num) (le_max_left 1 _)
        exact_mod_cast le_trans zero_le_one h1
      · exact hm
    constructor
    · rw [hbk]
      exact sub_nonneg.mpr (min_le_right _ _)
    · rw [hcb]
      exact le_min hbet hb
  · obtain ⟨hcb, hbk⟩ := basic_bet_sizing p dr hs hb hm
    exact ⟨by rw [hbk]; exact sub_nonneg.mpr (min_le_right _ _),
           by rw [hcb]; exact le_min hm hb⟩

theorem reshuffleCheck_money (fresh : List Card) (g : Blackjack)
    (hb : ∀ p ∈ g.players, 0 ≤ p.bankroll) (hm : ∀ p ∈ g.players, 0 ≤ p.min_bet) :
    ∀ p' ∈ (reshuffleCheck fresh g).players, 0 ≤ p'.bankroll ∧ 0 ≤ p'.min_bet := by
  intro p' hp'
  unfold reshuffleCheck at hp'
  split at hp'
  · dsimp only at hp'
    simp only [List.mem_map] at hp'
    obtain ⟨p, hp, rfl⟩ := hp'
    by_cases hc : p.strategy = Strategy.card_counter
    · rw [if_pos hc]
      exact ⟨hb p hp, hm p hp⟩
    · rw [if_neg hc]
      exact ⟨hb p hp, hm p hp⟩
  · exact ⟨hb p' hp', hm p' hp'⟩

theorem collectBets_moneyOK (g : Blackjack)
    (hb : ∀ p ∈ g.players, 0 ≤ p.bankroll) (hm : ∀ p ∈ g.players, 0 ≤ p.min_bet) :
    ∀ p' ∈ (collectBets g).players, 0 ≤ p'.bankroll ∧ 0 ≤ p'.current_bet := by
  intro p' hp'
  unfold collectBets at hp'
  dsimp only at hp'
  simp only [List.mem_map] at hp'
  obtain ⟨p, hp, rfl⟩ := hp'
  exact place_bet_moneyOK p _ (hb p hp) (hm p hp)

theorem dealRound_moneyOK :
    ∀ (ps : List Player) (d d' : Deck) (ps' : List Player),
      dealRound d ps = some (d', ps') →
      (∀ p ∈ ps, 0 ≤ p.bankroll ∧ 0 ≤ p.current_bet) →
      ∀ p' ∈ ps', 0 ≤ p'.bankroll ∧ 0 ≤ p'.current_bet := by
  intro ps
  induction ps with
  | nil =>
    intro d d' ps' hrun hin p' hp'
    unfold dealRound at hrun
    simp only [Option.some.injEq, Prod.mk.injEq] at hrun
    obtain ⟨-, rfl⟩ := hrun
    exact absurd hp' (List.not_mem_nil p')
  | cons p ps ih =>
    intro d d' ps' hrun hin p' hp'
    unfold dealRound at hrun
    split at hrun
    · exact Option.noConfusion hrun
    · next c d1 heq1 =>
      split at hrun
      · exact Option.noConfusion hrun
      · next h hs heq2 =>
        split at hrun
        · exact Option.noConfusion hrun
        · next d2 ps2 heq3 =>
          simp only [Option.some.injEq, Prod.mk.injEq] at hrun
          obtain ⟨rfl, rfl⟩ := hrun
          rcases List.mem_cons.mp hp' with rfl | hmem
          · have hp0 := hin p (List.mem_cons_self p ps)
            refine ⟨?_, ?_⟩
            · rw [(update_count_fields _ c).1]
              exact hp0.1
            · rw [(update_count_fields _ c).2.2.1]
              exact hp0.2
          · exact ih d1 d2 ps2 heq3 (fun q hq => hin q (List.mem_cons_of_mem p hq)) p' hmem

theorem deal_initial_moneyOK (g g2 : Blackjack) (hrun : deal_initial_cards g = some g2)
    (hin : ∀ p ∈ g.players, 0 ≤ p.bankroll ∧ 0 ≤ p.current_bet) :
    ∀ p ∈ g2.players, 0 ≤ p.bankroll ∧ 0 ≤ p.current_bet := by
  unfold deal_initial_cards at hrun
  dsimp only at hrun
  split at hrun
  · exact Option.noConfusion hrun
  · next d1 ps1 heq1 =>
    split at hrun
    · exact Option.noConfusion hrun
    · next c1 d2 heq2 =>
      split at hrun
      · exact Option.noConfusion hrun
      · next d3 ps2 heq3 =>
        split at hrun
        · exact Option.noConfusion hrun
        · next c2 d4 heq4 =>
          simp only [Option.some.injEq] at hrun
          subst hrun
          intro p hp
          have hstep0 : ∀ q ∈ g.players.map
              (fun p => { p with hands := [(⟨[]⟩ : Hand)] }), 0 ≤ q.bankroll ∧ 0 ≤ q.current_bet := by
            intro q hq
            simp only [List.mem_map] at hq
            obtain ⟨q0, hq0, rfl⟩ := hq
            exact hin q0 hq0
          have hstep1 := dealRound_moneyOK _ _ _ _ heq1 hstep0
          have hstep2 : ∀ q ∈ ps1.map (fun p => p.update_count c1),
              0 ≤ q.bankroll ∧ 0 ≤ q.current_bet := by
            intro q hq
            simp only [List.mem_map] at hq
            obtain ⟨q0, hq0, rfl⟩ := hq
            have h0 := hstep1 q0 hq0
            exact ⟨by rw [(update_count_fields q0 c1).1]; exact h0.1,
                   by rw [(update_count_fields q0 c1).2.2.1]; exact h0.2⟩
          exact dealRound_moneyOK _ _ _ _ heq3 hstep2 p hp

theorem playerLoop_moneyOK (upcard : ℕ) :
    ∀ (cards : List Card) (p : Player) (h : Hand) (cards' : List Card) (p' : Player) (h' : Hand),
      playerLoop upcard cards p h = some (cards', p', h') →
      0 ≤ p.bankroll → 0 ≤ p.current_bet →
      0 ≤ p'.bankroll ∧ 0 ≤ p'.current_bet := by
  intro cards
  induction cards with
  | nil =>
    intro p h cards' p' h' hrun hb hcb
    unfold playerLoop at hrun
    split at hrun
    · simp only [Option.some.injEq, Prod.mk.injEq] at hrun
      obtain ⟨rfl, rfl, rfl⟩ := hrun
      exact ⟨hb, hcb⟩
    · exact Option.noConfusion hrun
  | cons c rest ih =>
    intro p h cards' p' h' hrun hb hcb
    unfold playerLoop at hrun
    split at hrun
    · simp only [Option.some.injEq, Prod.mk.injEq] at hrun
      obtain ⟨rfl, rfl, rfl⟩ := hrun
      exact ⟨hb, hcb⟩
    · dsimp only at hrun
      split at hrun
      · simp only [Option.some.injEq, Prod.mk.injEq] at hrun
        obtain ⟨rfl, rfl, rfl⟩ := hrun
        exact ⟨by rw [(update_count_fields p c).1]; exact hb,
               by rw [(update_count_fields p c).2.2.1]; exact hcb⟩
      · have := ih (p.update_count c) ⟨h.cards ++ [c]⟩ cards' p' h' hrun
          (by rw [(update_count_fields p c).1]; exact hb)
          (by rw [(update_count_fields p c).2.2.1]; exact hcb)
        exact this
    · dsimp only at hrun
      simp only [Option.some.injEq, Prod.mk.injEq] at hrun
      obtain ⟨rfl, rfl, rfl⟩ := hrun
      constructor
      · rw [(update_count_fields _ c).1]
        dsimp only
        rw [qSub_eq]
        exact sub_nonneg.mpr (min_le_right _ _)
      · rw [(update_count_fields _ c).2.2.1]
        dsimp only
        rw [qAdd_eq]
        exact add_nonneg hcb (le_min hcb hb)

theorem playerTurn_moneyOK (upcard : ℕ) (cards : List Card) (p : Player) (cards' : List Card)
    (p' : Player) (hrun : playerTurn upcard cards p = some (cards', p'))
    (hb : 0 ≤ p.bankroll) (hcb : 0 ≤ p.current_bet) :
    0 ≤ p'.bankroll ∧ 0 ≤ p'.current_bet := by
  unfold playerTurn at hrun
  split at hrun
  · exact Option.noConfusion hrun
  · next h hs heq =>
    split at hrun
    · simp only [Option.some.injEq, Prod.mk.injEq] at hrun
      obtain ⟨rfl, rfl⟩ := hrun
      constructor
      · unfold Player.add_winnings
        dsimp only
        rw [qAdd_eq, qAdd_eq, qMul_eq, BLACKJACK_PAYOUT_eq]
        exact add_nonneg hb (add_nonneg hcb (mul_nonneg hcb (by norm_num)))
      · exact hcb
    · split at hrun
      · exact Option.noConfusion hrun
      · next cards2 p2 h2 heq2 =>
        simp only [Option.some.injEq, Prod.mk.injEq] at hrun
        obtain ⟨rfl, rfl⟩ := hrun
        exact playerLoop_moneyOK upcard cards p h cards2 p2 h2 heq2 hb hcb

theorem playersTurn_moneyOK (upcard : ℕ) :
    ∀ (ps : List Player) (cards cards' : List Card) (ps' : List Player),
      playersTurn upcard cards ps = some (cards', ps') →
      (∀ p ∈ ps, 0 ≤ p.bankroll ∧ 0 ≤ p.current_bet) →
      ∀ p' ∈ ps', 0 ≤ p'.bankroll ∧ 0 ≤ p'.current_bet := by
  intro ps
  induction ps with
  | nil =>
    intro cards cards' ps' hrun hin p' hp'
    unfold playersTurn at hrun
    simp only [Option.some.injEq, Prod.mk.injEq] at hrun
    obtain ⟨-, rfl⟩ := hrun
    exact absurd hp' (List.not_mem_nil p')
  | cons p ps ih =>
    intro cards cards' ps' hrun hin p' hp'
    unfold playersTurn at hrun
    split at hrun
    · exact Option.noConfusion hrun
    · next cards1 p1 heq1 =>
      split at hrun
      · exact Option.noConfusion hrun
      · next cards2 ps2 heq2 =>
        simp only [Option.some.injEq, Prod.mk.injEq] at hrun
        obtain ⟨rfl, rfl⟩ := hrun
        rcases List.mem_cons.mp hp' with rfl | hmem
        · have h0 := hin p (List.mem_cons_self p ps)
          exact playerTurn_moneyOK upcard cards p cards1 p' heq1 h0.1 h0.2
        · exact ih cards1 cards2 ps2 heq2 (fun q hq => hin q (List.mem_cons_of_mem p hq)) p' hmem

theorem dealerLoop_moneyOK :
    ∀ (cards : List Card) (dealer : Hand) (ps : List Player) (cards' : List Card)
      (dealer' : Hand) (ps' : List Player),
      dealerLoop cards dealer ps = some (cards', dealer', ps') →
      (∀ p ∈ ps, 0 ≤ p.bankroll ∧ 0 ≤ p.current_bet) →
      ∀ p' ∈ ps', 0 ≤ p'.bankroll ∧ 0 ≤ p'.current_bet := by
  intro cards
  induction cards with
  | nil =>
    intro dealer ps cards' dealer' ps' hrun hin
    unfold dealerLoop at hrun
    split at hrun
    · exact Option.noConfusion hrun
    · simp only [Option.some.injEq, Prod.mk.injEq] at hrun
      obtain ⟨-, -, rfl⟩ := hrun
      exact hin
  | cons c rest ih =>
    intro dealer ps cards' dealer' ps' hrun hin
    unfold dealerLoop at hrun
    split at hrun
    · refine ih _ _ _ _ _ hrun ?_
      intro q hq
      simp only [List.mem_map] at hq
      obtain ⟨q0, hq0, rfl⟩ := hq
      have h0 := hin q0 hq0
      exact ⟨by rw [(update_count_fields q0 c).1]; exact h0.1,
             by rw [(update_count_fields q0 c).2.2.1]; exact h0.2⟩
    · simp only [Option.some.injEq, Prod.mk.injEq] at hrun
      obtain ⟨-, -, rfl⟩ := hrun
      exact hin

theorem dealerBJPush_moneyOK :
    ∀ (ps ps' : List Player), dealerBJPush ps = some ps' →
      (∀ p ∈ ps, 0 ≤ p.bankroll ∧ 0 ≤ p.current_bet) →
      ∀ p' ∈ ps', 0 ≤ p'.bankroll ∧ 0 ≤ p'.current_bet := by
  intro ps
  induction ps with
  | nil =>
    intro ps' hrun hin p' hp'
    unfold dealerBJPush at hrun
    simp only [Option.some.injEq] at hrun
    subst hrun
    exact absurd hp' (List.not_mem_nil p')
  | cons p ps ih =>
    intro ps' hrun hin p' hp'
    unfold dealerBJPush at hrun
    split at hrun
    · exact Option.noConfusion hrun
    · next h hs heq =>
      dsimp only at hrun
      cases hrec : dealerBJPush ps with
      | none => rw [hrec] at hrun; exact Option.noConfusion hrun
      | some ps2 =>
        rw [hrec] at hrun
        simp only [Option.map_some', Option.some.injEq] at hrun
        subst hrun
        rcases List.mem_cons.mp hp' with rfl | hmem
        · have h0 := hin p (List.mem_cons_self p ps)
          by_cases hbj : h.is_blackjack
          · rw [if_pos hbj]
            refine ⟨?_, h0.2⟩
            unfold Player.add_winnings
            dsimp only
            rw [qAdd_eq]
            exact add_nonneg h0.1 h0.2
          · rw [if_neg hbj]
            exact h0
        · exact ih ps2 hrec (fun q hq => hin q (List.mem_cons_of_mem p hq)) p' hmem

theorem settle_fold_moneyOK (dv : ℕ) (db : Bool) :
    ∀ (l : List Hand) (q : Player), 0 ≤ q.bankroll → 0 ≤ q.current_bet →
      0 ≤ (l.foldl (fun q h =>
          if h.is_busted then q
          else if db || decide (dv < h.get_value) then q.add_winnings (qMul q.current_bet 2)
          else if h.get_value = dv then q.add_winnings q.current_bet
          else q) q).bankroll := by
  intro l
  induction l with
  | nil => intro q hb _; exact hb
  | cons h l ih =>
    intro q hb hcb
    simp only [List.foldl_cons]
    by_cases h1 : h.is_busted
    · rw [if_pos h1]
      exact ih q hb hcb
    · rw [if_neg h1]
      by_cases h2 : (db || decide (dv < h.get_value)) = true
      · rw [if_pos h2]
        refine ih _ ?_ ?_
        · unfold Player.add_winnings
          dsimp only
          rw [qAdd_eq, qMul_eq]
          exact add_nonneg hb (mul_nonneg hcb (by norm_num))
        · exact hcb
      · rw [if_neg h2]
        by_cases h3 : h.get_value = dv
        · rw [if_pos h3]
          refine ih _ ?_ ?_
          · unfold Player.add_winnings
            dsimp only
            rw [qAdd_eq]
            exact add_nonneg hb hcb
          · exact hcb
        · rw [if_neg h3]
          exact ih q hb hcb

theorem settleHands_moneyOK (dv : ℕ) (db : Bool) (p : Player)
    (hb : 0 ≤ p.bankroll) (hcb : 0 ≤ p.current_bet) :
    0 ≤ (settleHands dv db p).bankroll := by
  unfold settleHands
  exact settle_fold_moneyOK dv db p.hands p hb hcb

/-- Claim C10: a round of `play_hand` keeps every bankroll nonnegative: with
every player's bankroll and table minimum bet nonnegative beforehand, the
initial bet and the doubling amount are clamped to the available bankroll
before deduction and every payout only adds money, so every bankroll in the
resulting state is nonnegative. -/
theorem bankroll_nonnegative (fresh : List Card) (g g' : Blackjack)
    (hb : ∀ p ∈ g.players, 0 ≤ p.bankroll) (hm : ∀ p ∈ g.players, 0 ≤ p.min_bet)
    (hrun : play_hand fresh g = some g') :
    ∀ p ∈ g'.players, 0 ≤ p.bankroll := by
  unfold play_hand at hrun
  dsimp only at hrun
  have h1 := reshuffleCheck_money fresh g hb hm
  have h2 := collectBets_moneyOK (reshuffleCheck fresh g)
    (fun p hp => (h1 p hp).1) (fun p hp => (h1 p hp).2)
  split at hrun
  · exact Option.noConfusion hrun
  · next g2 heq2 =>
    have h3 := deal_initial_moneyOK _ _ heq2 h2
    split at hrun
    · exact Option.noConfusion hrun
    · next up restDealer heq3 =>
      split at hrun
      · cases hbj : dealerBJPush g2.players with
        | none => rw [hbj] at hrun; exact Option.noConfusion hrun
        | some ps' =>
          rw [hbj] at hrun
          simp only [Option.map_some', Option.some.injEq] at hrun
          subst hrun
          intro p hp
          dsimp only at hp
          exact (dealerBJPush_moneyOK g2.players ps' hbj h3 p hp).1
      · split at hrun
        · exact Option.noConfusion hrun
        · next cards2 ps2 heq4 =>
          have h4 := playersTurn_moneyOK up.get_value g2.players g2.deck.cards cards2 ps2 heq4 h3
          split at hrun
          · cases restDealer with
            | nil =>
              dsimp only at hrun
              exact Option.noConfusion hrun
            | cons hole tail =>
              dsimp only at hrun
              split at hrun
              · exact Option.noConfusion hrun
              · next cards3 dealerFinal ps4 heq6 =>
                simp only [Option.some.injEq] at hrun
                subst hrun
                intro p hp
                dsimp only at hp
                simp only [List.mem_map] at hp
                obtain ⟨q, hq, rfl⟩ := hp
                have h5 : ∀ r ∈ ps2.map (fun p => p.update_count hole),
                    0 ≤ r.bankroll ∧ 0 ≤ r.current_bet := by
                  intro r hr
                  simp only [List.mem_map] at hr
                  obtain ⟨r0, hr0, rfl⟩ := hr
                  have h0 := h4 r0 hr0
                  exact ⟨by rw [(update_count_fields r0 hole).1]; exact h0.1,
                         by rw [(update_count_fields r0 hole).2.2.1]; exact h0.2⟩
                have h6 := dealerLoop_moneyOK cards2 g2.dealer _ cards3 dealerFinal ps4 heq6 h5
                exact settleHands_moneyOK _ _ q (h6 q hq).1 (h6 q hq).2
          · simp only [Option.some.injEq] at hrun
            subst hrun
            intro p hp
            dsimp only at hp
            exact (h4 p hp).1

/-- Witness helper: a junk player for `List.headD`. -/
def junkPlayer : Player :=
  { bankroll := 0, min_bet := 0, current_bet := 0, hands := [],
    strategy := Strategy.basic, running_count := 0, true_count := 0 }

/-- Witness helper: a basic player with a small bankroll. -/
def c10Player : Player :=
  { bankroll := 20, min_bet := 10, current_bet := 0, hands := [],
    strategy := Strategy.basic, running_count := 0, true_count := 0 }

/-- Witness helper: a one-player round for the bankroll invariant. -/
def c10Game : Blackjack :=
  { deck := ⟨[⟨Rank.r10, Suit.spades⟩, ⟨Rank.r7, Suit.spades⟩, ⟨Rank.r9, Suit.spades⟩,
      ⟨Rank.r10, Suit.hearts⟩], 0⟩,
    num_decks := 6, min_bet := 10, players := [c10Player], dealer := ⟨[]⟩ }

/-- Witness helper: the state after the witness round for C10. -/
def c10Out : Blackjack := (play_hand [] c10Game).getD junkBlackjack

/-- Witness for C10: the concrete one-player round completes and leaves the
player's bankroll nonnegative. -/
theorem bankroll_nonnegative_witness :
    0 ≤ (c10Out.players.headD junkPlayer).bankroll := by
  have h := bankroll_nonnegative [] c10Game c10Out (by decide) (by decide) (by decide)
  exact h _ (by decide)
